import Mathlib

/-!
Verification of the vector-quantizer module `src/model/VAE/quantizer.py`
(class `VectorQuantizer`).

The numeric tensor operations are embedded shallowly over `ℚ` (exact
arithmetic): a 1x1 convolution acts independently per spatial position, so
tensors entering the distance computation are modelled as lists of rows
(one row of length `e_dim` per batch/spatial position), and index tensors
are modelled as a flat data list together with an explicit shape
(`ITensor`).  `torch.Tensor.detach` is the numeric identity, so it
disappears in the value-level embedding; fallible operations (assertions,
invalid reshapes, out-of-range gathers) return `Option`.  The in-place
masked assignment of `unmap_to_all` writes through the contiguous reshape
view, so the model returns the caller's buffer after the call alongside
the result.
-/

namespace VQ

/-- Sum of squares of a vector: `torch.sum(v ** 2)` over the last axis. -/
def sumsq (v : List ℚ) : ℚ := (v.map (fun x => x ^ 2)).sum

/-- Dot product of two vectors, as computed by the einsum contraction
`einsum('bd,dn->bn', z, e.T)` at one `(row, codebook-entry)` pair. -/
def dot (a b : List ℚ) : ℚ := ((a.zip b).map (fun p => p.1 * p.2)).sum

/-- The distance used at quantizer.py lines 94-96: the expansion identity
`|z|^2 + |e|^2 - 2 * z . e`. -/
def d_expansion (z e : List ℚ) : ℚ := sumsq z + sumsq e - 2 * dot z e

/-- Squared Euclidean distance `|z - e|^2`, the quantity the expansion
identity is claimed to compute. -/
def sq_dist (z e : List ℚ) : ℚ := ((z.zip e).map (fun p => (p.1 - p.2) ^ 2)).sum

/-- Minimum of a list of rationals (junk value 0 on the empty list). -/
def listMin : List ℚ → ℚ
  | [] => 0
  | [a] => a
  | a :: b :: t => min a (listMin (b :: t))

/-- The `torch.argmin` of one row: the index of the first minimal value
(PyTorch documents that the index of the first minimal value is returned). -/
def argminIdx : List ℚ → ℕ
  | [] => 0
  | [_] => 0
  | a :: b :: t => if a ≤ listMin (b :: t) then 0 else argminIdx (b :: t) + 1

/-- Lookup of one codebook row: `self.embedding(i)` for a single index. -/
def embedLookup (codebook : List (List ℚ)) (i : ℕ) : List ℚ := codebook.getD i []

/-- Lines 94-98 of quantizer.py, row-wise: the distance row from one input
vector to every codebook entry, followed by `torch.argmin(d, dim=1)`. -/
def codebook_indices (codebook : List (List ℚ)) (zrows : List (List ℚ)) : List ℕ :=
  zrows.map (fun z => argminIdx (codebook.map (fun e => d_expansion z e)))

/-- The value `torch.mean((a - b) ** 2)` for two equally shaped tensors given as flat
lists. -/
def mse (a b : List ℚ) : ℚ := ((a.zip b).map (fun p => (p.1 - p.2) ^ 2)).sum / a.length

/-- Lines 103-109 of quantizer.py: the embedding loss.  `detach` is the
numeric identity, so both `z_q.detach()-z` and `z_q - z.detach()` are
`z_q - z` on the value level; the `legacy` flag selects which of the two
mean-squared-error terms is scaled by `beta`. -/
def vq_loss (legacy : Bool) (beta : ℚ) (z z_q : List ℚ) : ℚ :=
  if ¬legacy then
    beta * mse z_q z + mse z_q z
  else
    mse z_q z + beta * mse z_q z

/-- An integer index tensor: flat row-major data plus an explicit shape. -/
structure ITensor where
  shape : List ℕ
  data : List ℕ
deriving DecidableEq, Repr

/-- The `unknown_index` constructor argument: `"random"`, `"extra"`, or an
explicit integer. -/
inductive UnknownCfg
  | random
  | extra
  | fixed (i : ℕ)
deriving DecidableEq, Repr

/-- The `self.unknown_index` field after `__init__` ran: either the string
`"random"` or a concrete integer (`"extra"` was replaced by the integer
`self.re_embed` before the increment, i.e. the table length). -/
inductive ResolvedUnknown
  | random
  | value (v : ℕ)
deriving DecidableEq, Repr

/-- Lines 34-44 of quantizer.py: `self.re_embed` as computed in `__init__`
from `n_e` and the optional remap configuration (table contents and
`unknown_index` policy). -/
def re_embed (n_e : ℕ) : Option (List ℕ × UnknownCfg) → ℕ
  | none => n_e
  | some (used, UnknownCfg.extra) => used.length + 1
  | some (used, UnknownCfg.random) => used.length
  | some (used, UnknownCfg.fixed _) => used.length

/-- Lines 37-39 of quantizer.py: the resolution of the `unknown_index`
policy performed in `__init__` (`"extra"` becomes the integer equal to the
table length). -/
def resolvedUnknown (used : List ℕ) : UnknownCfg → ResolvedUnknown
  | UnknownCfg.random => ResolvedUnknown.random
  | UnknownCfg.extra => ResolvedUnknown.value used.length
  | UnknownCfg.fixed i => ResolvedUnknown.value i

/-- Line 57-58 of quantizer.py at one entry: the position of the first
match of `x` in the `used` table (`(inds == used).argmax(-1)`; PyTorch
returns the first maximal position), or `none` when there is no match. -/
def matchIdx (used : List ℕ) (x : ℕ) : Option ℕ :=
  match used with
  | [] => none
  | u :: t => if u = x then some 0 else (matchIdx t x).map (· + 1)

/-- Lines 60-63 of quantizer.py: the value written at flat position `j`
for an unmatched entry.  The `"random"` draw `torch.randint(0, re_embed, _)`
is modelled by an oracle `rnd` indexed by the flat position. -/
def unknownResolution (unk : ResolvedUnknown) (rnd : ℕ → ℕ) (j : ℕ) : ℕ :=
  match unk with
  | ResolvedUnknown.random => rnd j
  | ResolvedUnknown.value v => v

/-- Lines 57-63 of quantizer.py at one flat position `j` holding entry `x`:
matched entries become their first position in the table, unmatched ones
the unknown-policy value. -/
def remapEntry (used : List ℕ) (unk : ResolvedUnknown) (rnd : ℕ → ℕ) (j x : ℕ) : ℕ :=
  match matchIdx used x with
  | some p => p
  | none => unknownResolution unk rnd j

/-- Lines 52-64 of quantizer.py, `remap_to_used`: requires rank > 1 (the
assert), is elementwise on the flat data (the two reshapes are inverse
views), and keeps the input shape. -/
def remap_to_used (used : List ℕ) (unk : ResolvedUnknown) (rnd : ℕ → ℕ)
    (t : ITensor) : Option ITensor :=
  if 1 < t.shape.length then
    some ⟨t.shape,
      (List.range t.data.length).map (fun j => remapEntry used unk rnd j (t.data.getD j 0))⟩
  else none

/-- Lines 66-74 of quantizer.py, `unmap_to_all`: requires rank > 1 (the
assert); when `re_embed` exceeds the table length (the `"extra"` policy)
all entries `>= used.length` are first overwritten with 0 *in place*
(through the contiguous reshape view of the caller's tensor), then the
result is gathered from the `used` table.  Returns
`(gathered result, caller's buffer after the call)`; `none` models the
assert failure or an out-of-range gather. -/
def unmap_to_all (used : List ℕ) (re : ℕ) (t : ITensor) :
    Option (ITensor × ITensor) :=
  if 1 < t.shape.length then
    let zeroed := if used.length < re
      then t.data.map (fun x => if used.length ≤ x then 0 else x)
      else t.data
    if zeroed.all (fun x => decide (x < used.length)) then
      some (⟨t.shape, zeroed.map (fun i => used.getD i 0)⟩, ⟨t.shape, zeroed⟩)
    else none
  else none

/-- A 1x1 convolution (`Conv2d(c_in, c_out, 1)`) at one spatial position:
a shared linear map `v ↦ W v + bias` applied to the channel vector. -/
def conv1x1 (W : List (List ℚ)) (bias : List ℚ) (v : List ℚ) : List ℚ :=
  (W.zip bias).map (fun p => dot p.1 v + p.2)

/-- Lines 152-169 of quantizer.py, `get_codebook_index` (2-D path):
`quant_conv` per position, flatten, argmin over the codebook, reshape to
`(b, h, w)`.  No remap is applied.  `none` models the invalid reshape when
the number of positions does not match `b*h*w`. -/
def get_codebook_index_2d (W : List (List ℚ)) (bias : List ℚ)
    (codebook : List (List ℚ)) (b h w : ℕ) (zrows : List (List ℚ)) :
    Option ITensor :=
  if zrows.length = b * h * w then
    some ⟨[b, h, w], codebook_indices codebook (zrows.map (conv1x1 W bias))⟩
  else none

/-- Lines 98 and 122-133 of quantizer.py (2-D path): the
`min_encoding_indices` output of `forward_quantizer` on post-`quant_conv`
rows.  With a remap the flat indices are reshaped to `(b, -1)`, remapped,
and reshaped to `(-1, 1)`; with `sane_index_shape` they are reshaped to
`(b, h, w)` (`z_q.shape[0], z_q.shape[2], z_q.shape[3]`). -/
def forward_min_indices (codebook : List (List ℚ))
    (remap : Option (List ℕ × UnknownCfg)) (rnd : ℕ → ℕ) (sane : Bool)
    (b h w : ℕ) (zrows : List (List ℚ)) : Option ITensor :=
  if zrows.length = b * h * w then
    let flat : ITensor := ⟨[b * h * w], codebook_indices codebook zrows⟩
    let remapped : Option ITensor :=
      match remap with
      | none => some flat
      | some (used, cfg) =>
        (remap_to_used used (resolvedUnknown used cfg) rnd ⟨[b, h * w], flat.data⟩).map
          (fun t' => ⟨[b * h * w, 1], t'.data⟩)
    remapped.map (fun t' => if sane then ⟨[b, h, w], t'.data⟩ else t')
  else none

/-- Lines 76-79 plus the above: the index output of the full `forward`
(2-D path), whose input first passes through `quant_conv` at every
position (`post_quant_conv` does not touch the indices). -/
def forward_indices_2d (W : List (List ℚ)) (bias : List ℚ)
    (codebook : List (List ℚ)) (remap : Option (List ℕ × UnknownCfg))
    (rnd : ℕ → ℕ) (sane : Bool) (b h w : ℕ) (zrows : List (List ℚ)) :
    Option ITensor :=
  forward_min_indices codebook remap rnd sane b h w (zrows.map (conv1x1 W bias))

/-- Lines 82-84 of quantizer.py: the three interface-compatibility asserts
of `forward_quantizer`.  `true` means all asserts pass. -/
def flags_ok (temp : Option ℚ) (rescale_logits return_logits : Bool) : Bool :=
  (temp == none || temp == some 1) && rescale_logits == false && return_logits == false

/-- The `forward_quantizer` method guarded by its asserts: the index output is only
computed when the compatibility flags pass; `none` models the
`AssertionError`. -/
def forward_quantizer_2d (temp : Option ℚ) (rescale_logits return_logits : Bool)
    (codebook : List (List ℚ)) (remap : Option (List ℕ × UnknownCfg))
    (rnd : ℕ → ℕ) (sane : Bool) (b h w : ℕ) (zrows : List (List ℚ)) :
    Option ITensor :=
  if flags_ok temp rescale_logits return_logits then
    forward_min_indices codebook remap rnd sane b h w zrows
  else none

/-- Lines 98-99 and 112 of quantizer.py, row-wise: the quantized rows of
`forward_quantizer` at the embedding-lookup stage, including the
straight-through substitution `z + (z_q - z).detach()` (numerically
`z + (z_q - z)`). -/
def forward_zq_rows (codebook : List (List ℚ)) (zrows : List (List ℚ)) :
    List (List ℚ) :=
  zrows.map (fun z =>
    let z_q := embedLookup codebook (argminIdx (codebook.map (fun e => d_expansion z e)))
    (z.zip z_q).map (fun p => p.1 + (p.2 - p.1)))

/-- Lines 136-151 of quantizer.py, `get_codebook_entry` with no remap
configured, row-wise: a plain embedding lookup of each index.  (The
subsequent `view(shape)` + `permute(0,3,1,2)` is the same
`b h w c -> b c h w` relayout `forward_quantizer` applies to its own
output, so the two pipelines are compared at the row level.) -/
def get_codebook_entry_rows (codebook : List (List ℚ)) (indices : List ℕ) :
    List (List ℚ) :=
  indices.map (embedLookup codebook)

/-- All entries of a flat index list are below a bound. -/
def allLt (l : List ℕ) (n : ℕ) : Prop := ∀ y ∈ l, y < n

end VQ

namespace VQ

theorem listMin_le {l : List ℚ} {x : ℚ} (hx : x ∈ l) : listMin l ≤ x := by
  induction l with
  | nil => cases hx
  | cons a t ih =>
    cases t with
    | nil =>
      rcases List.mem_cons.mp hx with h | h
      · simp [listMin, h]
      · simp at h
    | cons b t' =>
      rcases List.mem_cons.mp hx with h | h
      · simp [listMin, h]
      · exact le_trans (min_le_right _ _) (ih h)

theorem argminIdx_lt_length {l : List ℚ} (h : l ≠ []) : argminIdx l < l.length := by
  induction l with
  | nil => exact absurd rfl h
  | cons a t ih =>
    cases t with
    | nil => simp [argminIdx]
    | cons b t' =>
      by_cases hle : a ≤ listMin (b :: t')
      · simp [argminIdx, hle]
      · have h2 := ih (by simp)
        simp only [argminIdx, hle, if_false, List.length_cons] at h2 ⊢
        omega

theorem getD_argminIdx {l : List ℚ} (h : l ≠ []) :
    l.getD (argminIdx l) 0 = listMin l := by
  induction l with
  | nil => exact absurd rfl h
  | cons a t ih =>
    cases t with
    | nil => simp [argminIdx, listMin]
    | cons b t' =>
      by_cases hle : a ≤ listMin (b :: t')
      · simp only [argminIdx, hle, if_true, List.getD_cons_zero, listMin]
        exact (min_eq_left hle).symm
      · simp only [argminIdx, hle, if_false, List.getD_cons_succ, listMin]
        rw [ih (by simp)]
        exact (min_eq_right (le_of_not_le hle)).symm

theorem argminIdx_first {l : List ℚ} {i : ℕ} (hi : i < argminIdx l) :
    listMin l < l.getD i 0 := by
  induction l generalizing i with
  | nil => simp [argminIdx] at hi
  | cons a t ih =>
    cases t with
    | nil => simp [argminIdx] at hi
    | cons b t' =>
      by_cases hle : a ≤ listMin (b :: t')
      · simp [argminIdx, hle] at hi
      · simp only [argminIdx, hle, if_false] at hi
        cases i with
        | zero =>
          simp only [List.getD_cons_zero, listMin]
          have hlt := lt_of_not_le hle
          exact lt_of_le_of_lt (min_le_right _ _) hlt
        | succ j =>
          simp only [List.getD_cons_succ, listMin]
          have : listMin (b :: t') < (b :: t').getD j 0 := ih (by omega)
          exact lt_of_le_of_lt (min_le_right _ _) this

theorem d_expansion_eq_sq_dist (z e : List ℚ) (h : z.length = e.length) :
    d_expansion z e = sq_dist z e := by
  induction z generalizing e with
  | nil =>
    cases e with
    | nil => simp [d_expansion, sq_dist, sumsq, dot]
    | cons b t => simp at h
  | cons a t ih =>
    cases e with
    | nil => simp at h
    | cons b s =>
      have hts : t.length = s.length := by simpa using h
      have := ih s hts
      simp only [d_expansion, sq_dist, sumsq, dot, List.zip_cons_cons,
        List.map_cons, List.sum_cons] at this ⊢
      ring_nf
      ring_nf at this
      linarith

theorem matchIdx_lt {used : List ℕ} {x p : ℕ} (h : matchIdx used x = some p) :
    p < used.length := by
  induction used generalizing p with
  | nil => simp [matchIdx] at h
  | cons u t ih =>
    simp only [matchIdx] at h
    by_cases hu : u = x
    · rw [if_pos hu] at h
      simp only [Option.some.injEq] at h
      simp only [List.length_cons]
      omega
    · rw [if_neg hu] at h
      cases hmt : matchIdx t x with
      | none => rw [hmt] at h; simp at h
      | some q =>
        rw [hmt] at h
        simp only [Option.map_some', Option.some.injEq] at h
        have := ih hmt
        simp only [List.length_cons]
        omega

theorem getD_matchIdx {used : List ℕ} {x p : ℕ} (h : matchIdx used x = some p) :
    used.getD p 0 = x := by
  induction used generalizing p with
  | nil => simp [matchIdx] at h
  | cons u t ih =>
    simp only [matchIdx] at h
    by_cases hu : u = x
    · rw [if_pos hu] at h
      simp only [Option.some.injEq] at h
      subst h
      simpa using hu
    · rw [if_neg hu] at h
      cases hmt : matchIdx t x with
      | none => rw [hmt] at h; simp at h
      | some q =>
        rw [hmt] at h
        simp only [Option.map_some', Option.some.injEq] at h
        subst h
        simpa [List.getD_cons_succ] using ih hmt

theorem matchIdx_of_mem {used : List ℕ} {x : ℕ} (hx : x ∈ used) :
    ∃ p, matchIdx used x = some p := by
  induction used with
  | nil => cases hx
  | cons u t ih =>
    by_cases hu : u = x
    · exact ⟨0, by simp [matchIdx, hu]⟩
    · rcases List.mem_cons.mp hx with h | h
      · exact absurd h.symm hu
      · obtain ⟨p, hp⟩ := ih h
        exact ⟨p + 1, by simp [matchIdx, hu, hp]⟩

theorem matchIdx_get {used : List ℕ} (hnd : used.Nodup) {p : ℕ}
    (hp : p < used.length) : matchIdx used (used.get ⟨p, hp⟩) = some p := by
  induction used generalizing p with
  | nil => simp at hp
  | cons u t ih =>
    rw [List.nodup_cons] at hnd
    cases p with
    | zero => simp [matchIdx]
    | succ q =>
      have hq : q < t.length := by simpa using hp
      have hmem : t.get ⟨q, hq⟩ ∈ t := List.get_mem t q hq
      have hne : u ≠ t.get ⟨q, hq⟩ := fun he => hnd.1 (he ▸ hmem)
      simp only [List.get_cons_succ, matchIdx, hne, if_false, ih hnd.2 hq,
        Option.map_some']

theorem getD_range_map {α : Type} (f : ℕ → α) {n j : ℕ} (d : α) (hj : j < n) :
    ((List.range n).map f).getD j d = f j := by
  rw [List.getD_eq_getElem _ _ (by simpa using hj)]
  simp

theorem range_map_getD {α : Type} (l : List α) (d : α) :
    (List.range l.length).map (fun j => l.getD j d) = l := by
  apply List.ext_getElem (by simp)
  intro i h1 h2
  simp only [List.getElem_map, List.getElem_range]
  exact List.getD_eq_getElem l d h2

theorem codebook_indices_lt {codebook : List (List ℚ)} (hcb : codebook ≠ [])
    {zrows : List (List ℚ)} {y : ℕ} (hy : y ∈ codebook_indices codebook zrows) :
    y < codebook.length := by
  rw [codebook_indices, List.mem_map] at hy
  obtain ⟨z, _, rfl⟩ := hy
  have h := argminIdx_lt_length (l := codebook.map (fun e => d_expansion z e))
    (by simpa using hcb)
  simpa using h

theorem remapEntry_lt {used : List ℕ} {unk : ResolvedUnknown} {rnd : ℕ → ℕ}
    {re j x : ℕ} (hk : used.length ≤ re)
    (hunk : ∀ i, unknownResolution unk rnd i < re) :
    remapEntry used unk rnd j x < re := by
  unfold remapEntry
  split
  · next p hp => exact lt_of_lt_of_le (matchIdx_lt hp) hk
  · exact hunk j

theorem used_length_le_re_embed (n_e : ℕ) (used : List ℕ) (cfg : UnknownCfg) :
    used.length ≤ re_embed n_e (some (used, cfg)) := by
  cases cfg <;> simp [re_embed]

theorem zip_st_eq {z z_q : List ℚ} (h : z.length = z_q.length) :
    (z.zip z_q).map (fun p => p.1 + (p.2 - p.1)) = z_q := by
  induction z generalizing z_q with
  | nil =>
    cases z_q with
    | nil => simp
    | cons b s => simp at h
  | cons a t ih =>
    cases z_q with
    | nil => simp at h
    | cons b s =>
      have hts : t.length = s.length := by simpa using h
      simp only [List.zip_cons_cons, List.map_cons, ih hts, List.cons.injEq]
      exact ⟨by ring, trivial⟩

theorem embedLookup_mem {codebook : List (List ℚ)} {i : ℕ} (hi : i < codebook.length) :
    embedLookup codebook i ∈ codebook := by
  rw [embedLookup, List.getD_eq_getElem _ _ hi]
  exact List.getElem_mem hi

end VQ

namespace VQ

/-- Claim C1, counterexample.  Quantizer with remap table `[5]` (one entry,
`k = 1`) and `unknown_index="extra"` (so `re_embed = 2`): the rank-2 index
tensor `[[1]]` holds the reserved extra slot `1 >= k`, and `unmap_to_all`
maps it to `5` — the 0-th *entry of the table* — not to full-codebook
index `0` as the claim states. -/
theorem C1_counterexample :
    unmap_to_all [5] (re_embed 8 (some ([5], UnknownCfg.extra))) ⟨[1, 1], [1]⟩ =
      some (⟨[1, 1], [5]⟩, ⟨[1, 1], [0]⟩) ∧ (5 : ℕ) ≠ 0 := by decide

/-- Claim C1 (amended).  For a quantizer with a nonempty remap table and
`unknown_index="extra"`: for every index tensor of rank >= 2, `unmap_to_all`
maps every entry `>=` the remap-table length to the 0-th entry of the remap
table (the compact index is first overwritten with 0, then looked up), and
maps every other entry `i` to the `i`-th entry of the remap table. -/
theorem C1_unmap_extra (n_e : ℕ) (used : List ℕ) (t : ITensor)
    (hne : used ≠ []) (hrank : 1 < t.shape.length) :
    unmap_to_all used (re_embed n_e (some (used, UnknownCfg.extra))) t =
      some (⟨t.shape, t.data.map
              (fun x => if used.length ≤ x then used.getD 0 0 else used.getD x 0)⟩,
            ⟨t.shape, t.data.map (fun x => if used.length ≤ x then 0 else x)⟩) := by
  have hk : 0 < used.length := List.length_pos.mpr hne
  rw [unmap_to_all]
  rw [if_pos hrank]
  simp only [re_embed]
  rw [if_pos (Nat.lt_succ_self _)]
  rw [if_pos]
  · have hmap : t.data.map
        ((fun i => used.getD i 0) ∘ (fun x => if used.length ≤ x then 0 else x)) =
        t.data.map (fun x => if used.length ≤ x then used.getD 0 0 else used.getD x 0) := by
      apply List.map_congr_left
      intro x _
      by_cases hx : used.length ≤ x <;> simp [hx, Function.comp]
    rw [List.map_map, hmap]
  · rw [List.all_eq_true]
    intro x hx
    rw [List.mem_map] at hx
    obtain ⟨y, _, rfl⟩ := hx
    by_cases hy : used.length ≤ y
    · simp [hy, hk]
    · simp [hy]
      omega

/-- Claim C1, witness. -/
theorem C1_witness :
    unmap_to_all [3, 7] (re_embed 9 (some ([3, 7], UnknownCfg.extra))) ⟨[1, 2], [2, 1]⟩ =
      some (⟨[1, 2], [3, 7]⟩, ⟨[1, 2], [0, 1]⟩) :=
  (C1_unmap_extra 9 [3, 7] ⟨[1, 2], [2, 1]⟩ (by decide) (by decide)).trans (by decide)

/-- Claim C3.  For a quantizer with a remap table of size `k` with
pairwise-distinct entries and `unknown_index="extra"`: `re_embed = k+1`;
every full-space index present at position `p` of the table is remapped to
`p` by the per-entry map of `remap_to_used`; on a rank >= 2 tensor whose
entries all occur in the table, `remap_to_used` produces compact indices in
`[0,k)` and `unmap_to_all` maps the result back to the original tensor. -/
theorem C3_remap_roundtrip (n_e : ℕ) (used : List ℕ) (rnd : ℕ → ℕ) (t t' : ITensor)
    (hnd : used.Nodup) (hne : used ≠ []) (hrank : 1 < t.shape.length)
    (hmem : ∀ x ∈ t.data, x ∈ used)
    (hremap : remap_to_used used (resolvedUnknown used UnknownCfg.extra) rnd t = some t') :
    re_embed n_e (some (used, UnknownCfg.extra)) = used.length + 1 ∧
    (∀ p : ℕ, ∀ hp : p < used.length, ∀ j : ℕ,
      remapEntry used (resolvedUnknown used UnknownCfg.extra) rnd j
        (used.get ⟨p, hp⟩) = p) ∧
    (∀ y ∈ t'.data, y < used.length) ∧
    unmap_to_all used (re_embed n_e (some (used, UnknownCfg.extra))) t' =
      some (t, t') := by
  have hk : 0 < used.length := List.length_pos.mpr hne
  rw [remap_to_used, if_pos hrank] at hremap
  have ht' : t' = ⟨t.shape, (List.range t.data.length).map
      (fun j => remapEntry used (resolvedUnknown used UnknownCfg.extra) rnd j
        (t.data.getD j 0))⟩ := (Option.some.inj hremap).symm
  subst ht'
  have hentry : ∀ j, j < t.data.length →
      ∃ p, matchIdx used (t.data.getD j 0) = some p ∧
        remapEntry used (resolvedUnknown used UnknownCfg.extra) rnd j (t.data.getD j 0) = p ∧
        p < used.length ∧ used.getD p 0 = t.data.getD j 0 := by
    intro j hj
    have hmemj : t.data.getD j 0 ∈ t.data := by
      rw [List.getD_eq_getElem _ _ hj]
      exact List.getElem_mem hj
    obtain ⟨p, hp⟩ := matchIdx_of_mem (hmem _ hmemj)
    exact ⟨p, hp, by simp only [remapEntry, hp], matchIdx_lt hp, getD_matchIdx hp⟩
  have hbound : ∀ y ∈ (List.range t.data.length).map
      (fun j => remapEntry used (resolvedUnknown used UnknownCfg.extra) rnd j
        (t.data.getD j 0)), y < used.length := by
    intro y hy
    rw [List.mem_map] at hy
    obtain ⟨j, hj, rfl⟩ := hy
    rw [List.mem_range] at hj
    obtain ⟨p, _, he, hplt, _⟩ := hentry j hj
    rw [he]
    exact hplt
  refine ⟨by simp [re_embed], ?_, hbound, ?_⟩
  · intro p hp j
    simp only [remapEntry, matchIdx_get hnd hp]
  · rw [unmap_to_all]
    rw [if_pos hrank]
    simp only [re_embed]
    rw [if_pos (Nat.lt_succ_self _)]
    have hzero : ((List.range t.data.length).map
        (fun j => remapEntry used (resolvedUnknown used UnknownCfg.extra) rnd j
          (t.data.getD j 0))).map (fun x => if used.length ≤ x then 0 else x) =
        (List.range t.data.length).map
        (fun j => remapEntry used (resolvedUnknown used UnknownCfg.extra) rnd j
          (t.data.getD j 0)) := by
      conv_rhs => rw [← List.map_id ((List.range t.data.length).map
        (fun j => remapEntry used (resolvedUnknown used UnknownCfg.extra) rnd j
          (t.data.getD j 0)))]
      apply List.map_congr_left
      intro y hy
      have := hbound y hy
      simp [Nat.not_le.mpr this]
    rw [hzero]
    rw [if_pos]
    · have hback : ((List.range t.data.length).map
          (fun j => remapEntry used (resolvedUnknown used UnknownCfg.extra) rnd j
            (t.data.getD j 0))).map (fun i => used.getD i 0) = t.data := by
        rw [List.map_map]
        have hcongr : (List.range t.data.length).map
            ((fun i => used.getD i 0) ∘
              (fun j => remapEntry used (resolvedUnknown used UnknownCfg.extra) rnd j
                (t.data.getD j 0))) =
            (List.range t.data.length).map (fun j => t.data.getD j 0) := by
          apply List.map_congr_left
          intro j hj
          rw [List.mem_range] at hj
          obtain ⟨p, _, he, _, hgd⟩ := hentry j hj
          simp only [Function.comp, he, hgd]
        rw [hcongr, range_map_getD]
      rw [hback]
    · rw [List.all_eq_true]
      intro y hy
      simpa using hbound y hy

/-- Claim C3, witness. -/
theorem C3_witness :
    re_embed 9 (some ([2, 5], UnknownCfg.extra)) = ([2, 5] : List ℕ).length + 1 ∧
    (∀ p : ℕ, ∀ hp : p < ([2, 5] : List ℕ).length, ∀ j : ℕ,
      remapEntry [2, 5] (resolvedUnknown [2, 5] UnknownCfg.extra) (fun _ => 0) j
        (([2, 5] : List ℕ).get ⟨p, hp⟩) = p) ∧
    (∀ y ∈ (ITensor.mk [1, 2] [1, 0]).data, y < ([2, 5] : List ℕ).length) ∧
    unmap_to_all [2, 5] (re_embed 9 (some ([2, 5], UnknownCfg.extra)))
        ⟨[1, 2], [1, 0]⟩ =
      some (⟨[1, 2], [5, 2]⟩, ⟨[1, 2], [1, 0]⟩) :=
  C3_remap_roundtrip 9 [2, 5] (fun _ => 0) ⟨[1, 2], [5, 2]⟩ ⟨[1, 2], [1, 0]⟩
    (by decide) (by decide) (by decide) (by decide) (by decide)

/-- Claim C6.  The loss of lines 103-109 with `beta = 1/4` on `z = [1]`,
looked-up `z_q = [0]`: with `legacy = true` the total is
`(1-0)^2 + (1/4)*(0-1)^2 = 5/4` and the `beta` factor sits on the second
(commitment) term; with `legacy = false` the total is
`(1/4)*1 + 1 = 5/4` and `beta` sits on the first term. -/
theorem C6_legacy_loss :
    vq_loss true (1/4) [1] [0] = 5/4 ∧
    vq_loss false (1/4) [1] [0] = 5/4 ∧
    vq_loss true (1/4) [1] [0] = mse [0] [1] + (1/4) * mse [0] [1] ∧
    vq_loss false (1/4) [1] [0] = (1/4) * mse [0] [1] + mse [0] [1] := by
  refine ⟨?_, ?_, ?_, ?_⟩ <;> norm_num [vq_loss, mse]

/-- Claim C7, counterexample.  Passing `temp = 1.0` deviates from the default
`temp = None`, yet the asserts of lines 82-84 pass (`temp is None or
temp == 1.0`), so "fails iff any flag deviates from its default" is false. -/
theorem C7_counterexample :
    flags_ok (some 1) false false = true ∧ some (1 : ℚ) ≠ (none : Option ℚ) := by
  refine ⟨by rfl, by simp⟩

/-- Claim C7 (amended).  The forward pass fails with an assertion error iff
`temp` is neither `None` nor `1.0`, or `rescale_logits` is not `False`, or
`return_logits` is not `False`; when the asserts fail nothing further is
computed (the guarded forward returns no result). -/
theorem C7_assert_iff (temp : Option ℚ) (r l : Bool)
    (codebook : List (List ℚ)) (remap : Option (List ℕ × UnknownCfg))
    (rnd : ℕ → ℕ) (sane : Bool) (b h w : ℕ) (zrows : List (List ℚ)) :
    (flags_ok temp r l = false ↔
      ¬ ((temp = none ∨ temp = some 1) ∧ r = false ∧ l = false)) ∧
    (flags_ok temp r l = false →
      forward_quantizer_2d temp r l codebook remap rnd sane b h w zrows = none) := by
  constructor
  · rw [flags_ok]
    cases r <;> cases l <;> cases temp <;> simp
  · intro hf
    rw [forward_quantizer_2d, hf]
    simp

/-- Claim C7, witness. -/
theorem C7_witness :
    (flags_ok (some 2) false false = false ↔
      ¬ ((some (2:ℚ) = none ∨ some (2:ℚ) = some 1) ∧ false = false ∧ false = false)) ∧
    (flags_ok (some 2) false false = false →
      forward_quantizer_2d (some 2) false false [[1]] none (fun _ => 0) false 1 1 1 [[1]]
        = none) :=
  C7_assert_iff (some 2) false false [[1]] none (fun _ => 0) false 1 1 1 [[1]]

/-- Claim C10.  When the extra-unknown-slot policy is active
(`re_embed` exceeds the remap-table length), `unmap_to_all` overwrites, in
the caller's buffer (reached through the contiguous reshape view), every
entry `>=` the table length with 0 before the table lookup; when the input
holds such an entry the caller's tensor is not left unchanged. -/
theorem C10_unmap_mutates (used : List ℕ) (re : ℕ) (t : ITensor) (x : ℕ)
    (hne : used ≠ []) (hrank : 1 < t.shape.length) (hre : used.length < re)
    (hx : x ∈ t.data) (hxk : used.length ≤ x) :
    unmap_to_all used re t =
      some (⟨t.shape, (t.data.map (fun y => if used.length ≤ y then 0 else y)).map
              (fun i => used.getD i 0)⟩,
            ⟨t.shape, t.data.map (fun y => if used.length ≤ y then 0 else y)⟩) ∧
    (⟨t.shape, t.data.map (fun y => if used.length ≤ y then 0 else y)⟩ : ITensor) ≠ t := by
  have hk : 0 < used.length := List.length_pos.mpr hne
  constructor
  · rw [unmap_to_all]
    rw [if_pos hrank, if_pos hre, if_pos]
    rw [List.all_eq_true]
    intro y hy
    rw [List.mem_map] at hy
    obtain ⟨y0, _, rfl⟩ := hy
    by_cases hy0 : used.length ≤ y0
    · simp [hy0, hk]
    · simp [hy0]
      omega
  · intro hcontra
    have hdata : t.data.map (fun y => if used.length ≤ y then 0 else y) = t.data :=
      congrArg ITensor.data hcontra
    obtain ⟨i, hi, hix⟩ := List.mem_iff_getElem.mp hx
    have hlen : i < (t.data.map (fun y => if used.length ≤ y then 0 else y)).length := by
      simpa using hi
    have h2 : (t.data.map (fun y => if used.length ≤ y then 0 else y)).getD i 0 =
        t.data.getD i 0 := by rw [hdata]
    rw [List.getD_eq_getElem _ 0 hlen, List.getD_eq_getElem _ 0 hi] at h2
    rw [List.getElem_map] at h2
    rw [hix] at h2
    rw [if_pos hxk] at h2
    omega

/-- Claim C10, witness. -/
theorem C10_witness :
    unmap_to_all [4] 2 ⟨[1, 1], [9]⟩ =
      some (⟨[1, 1], [4]⟩, ⟨[1, 1], [0]⟩) ∧
    (⟨[1, 1], [0]⟩ : ITensor) ≠ ⟨[1, 1], [9]⟩ := by
  have h := C10_unmap_mutates [4] 2 ⟨[1, 1], [9]⟩ 9 (by decide) (by decide)
    (by decide) (by decide) (by decide)
  exact ⟨h.1.trans (by decide), by decide⟩

/-- Claim C2, counterexample.  Quantizer with a 3-entry codebook, remap table
`[0]` and `unknown_index="extra"` (so `re_embed = 2`): `get_codebook_index`
on an input whose nearest codebook entry is number 2 emits the index `2`,
which does not lie in `[0, re_embed) = [0, 2)` — so not *every* operation's
emitted indices lie in that range. -/
theorem C2_counterexample :
    get_codebook_index_2d [[1]] [0] [[0], [1], [2]] 1 1 1 [[2]] =
      some ⟨[1, 1, 1], [2]⟩ ∧
    re_embed 3 (some ([0], UnknownCfg.extra)) = 2 ∧ ¬ ((2 : ℕ) < 2) := by
  refine ⟨?_, by decide, by decide⟩
  norm_num [get_codebook_index_2d, codebook_indices, conv1x1, dot, d_expansion, sumsq,
    argminIdx, listMin]

/-- Claim C2 (amended).  Every index emitted by `forward` and by
`remap_to_used` lies in `[0, re_embed)`, provided every resolution of the
unknown-index policy is below `re_embed` (automatic for `"extra"`; a
`"random"` draw of `torch.randint(0, re_embed, _)` satisfies it by
construction; a user-supplied fixed integer must itself be below
`re_embed`).  `re_embed = n_e` with no remap, else the table size (+1 for
the extra slot).  `get_codebook_index` is not subject to the remap: its
indices lie in the full range `[0, n_e)` only. -/
theorem C2_index_range (codebook : List (List ℚ)) (used : List ℕ) (cfg : UnknownCfg)
    (rnd : ℕ → ℕ) (sane sane0 : Bool) (b h w b0 h0 w0 b1 h1 w1 : ℕ)
    (zrows zrows0 zrows1 : List (List ℚ)) (W : List (List ℚ)) (bias : List ℚ)
    (t t' ind ind0 gind : ITensor)
    (hcb : codebook ≠ [])
    (hunk : ∀ j, unknownResolution (resolvedUnknown used cfg) rnd j <
      re_embed codebook.length (some (used, cfg)))
    (hremap : remap_to_used used (resolvedUnknown used cfg) rnd t = some t')
    (hfwd : forward_min_indices codebook (some (used, cfg)) rnd sane b h w zrows = some ind)
    (hfwd0 : forward_min_indices codebook none rnd sane0 b0 h0 w0 zrows0 = some ind0)
    (hg : get_codebook_index_2d W bias codebook b1 h1 w1 zrows1 = some gind) :
    allLt t'.data (re_embed codebook.length (some (used, cfg))) ∧
    allLt ind.data (re_embed codebook.length (some (used, cfg))) ∧
    allLt ind0.data (re_embed codebook.length none) ∧
    allLt gind.data codebook.length := by
  have hkre := used_length_le_re_embed codebook.length used cfg
  refine ⟨?_, ?_, ?_, ?_⟩
  · rw [remap_to_used] at hremap
    split at hremap
    · have ht' := (Option.some.inj hremap).symm
      subst ht'
      intro y hy
      rw [List.mem_map] at hy
      obtain ⟨j, _, rfl⟩ := hy
      exact remapEntry_lt hkre hunk
    · simp at hremap
  · simp only [forward_min_indices] at hfwd
    split at hfwd
    · rw [remap_to_used] at hfwd
      rw [if_pos (by simp : 1 < ([b, h * w] : List ℕ).length)] at hfwd
      simp only [Option.map_some', Option.some.injEq] at hfwd
      have hind := hfwd.symm
      subst hind
      intro y hy
      have hy' : y ∈ (List.range (codebook_indices codebook zrows).length).map
          (fun j => remapEntry used (resolvedUnknown used cfg) rnd j
            ((codebook_indices codebook zrows).getD j 0)) := by
        cases sane <;> simpa using hy
      rw [List.mem_map] at hy'
      obtain ⟨j, _, rfl⟩ := hy'
      exact remapEntry_lt hkre hunk
    · simp at hfwd
  · simp only [forward_min_indices] at hfwd0
    split at hfwd0
    · simp only [Option.map_some', Option.some.injEq] at hfwd0
      have hind := hfwd0.symm
      subst hind
      intro y hy
      have hy' : y ∈ codebook_indices codebook zrows0 := by
        cases sane0 <;> simpa using hy
      simpa [re_embed] using codebook_indices_lt hcb hy'
    · simp at hfwd0
  · rw [get_codebook_index_2d] at hg
    split at hg
    · have hind := (Option.some.inj hg).symm
      subst hind
      intro y hy
      exact codebook_indices_lt hcb hy
    · simp at hg

/-- Claim C2, witness. -/
theorem C2_witness :
    allLt (ITensor.mk [1, 1] [1]).data (re_embed ([[(0:ℚ)], [1]]).length
      (some ([1], UnknownCfg.extra))) ∧
    allLt (ITensor.mk [1, 1] [1]).data (re_embed ([[(0:ℚ)], [1]]).length
      (some ([1], UnknownCfg.extra))) ∧
    allLt (ITensor.mk [1] [0]).data (re_embed ([[(0:ℚ)], [1]]).length none) ∧
    allLt (ITensor.mk [1, 1, 1] [0]).data ([[(0:ℚ)], [1]]).length := by
  refine C2_index_range [[(0:ℚ)], [1]] [1] UnknownCfg.extra (fun _ => 0) false false
    1 1 1 1 1 1 1 1 1 [[0]] [[0]] [[0]] [[1]] [0] ⟨[1, 1], [0]⟩ ⟨[1, 1], [1]⟩
    ⟨[1, 1], [1]⟩ ⟨[1], [0]⟩ ⟨[1, 1, 1], [0]⟩ (by decide)
    (fun _ => (by decide : (1 : ℕ) < 2))
    (by decide) ?_ ?_ ?_
  · norm_num [forward_min_indices, codebook_indices, d_expansion, sumsq, dot, argminIdx,
      listMin, remap_to_used, remapEntry, matchIdx, resolvedUnknown, unknownResolution]
  · norm_num [forward_min_indices, codebook_indices, d_expansion, sumsq, dot, argminIdx,
      listMin]
  · norm_num [get_codebook_index_2d, codebook_indices, conv1x1, dot, d_expansion, sumsq,
      argminIdx, listMin]

/-- Claim C4.  For every input vector `z` and nonempty codebook of matching
dimensions: the expansion-identity distance `|z|^2 + |e|^2 - 2 z.e` of
lines 94-96 equals the squared Euclidean distance `|z - e|^2` for every
codebook entry, and the index selected by `argmin` over the codebook axis
attains the minimum with ties broken in favour of the lowest index (every
strictly earlier position holds a strictly larger value). -/
theorem C4_distance_argmin (z : List ℚ) (codebook : List (List ℚ)) (e_dim : ℕ)
    (hz : z.length = e_dim) (hcb : codebook ≠ [])
    (hdims : ∀ e ∈ codebook, e.length = e_dim) :
    (∀ e ∈ codebook, d_expansion z e = sq_dist z e) ∧
    argminIdx (codebook.map (fun e => d_expansion z e)) < codebook.length ∧
    (codebook.map (fun e => d_expansion z e)).getD
        (argminIdx (codebook.map (fun e => d_expansion z e))) 0 =
      listMin (codebook.map (fun e => d_expansion z e)) ∧
    (∀ x ∈ codebook.map (fun e => d_expansion z e),
      listMin (codebook.map (fun e => d_expansion z e)) ≤ x) ∧
    (∀ i < argminIdx (codebook.map (fun e => d_expansion z e)),
      listMin (codebook.map (fun e => d_expansion z e)) <
        (codebook.map (fun e => d_expansion z e)).getD i 0) := by
  have hne : codebook.map (fun e => d_expansion z e) ≠ [] := by simpa using hcb
  refine ⟨?_, ?_, getD_argminIdx hne, fun x hx => listMin_le hx,
    fun i hi => argminIdx_first hi⟩
  · intro e he
    exact d_expansion_eq_sq_dist z e (hz.trans (hdims e he).symm)
  · have h := argminIdx_lt_length hne
    simpa using h

/-- Claim C4, witness. -/
theorem C4_witness :
    (∀ e ∈ ([[3], [1], [1]] : List (List ℚ)), d_expansion [2] e = sq_dist [2] e) ∧
    argminIdx (([[3], [1], [1]] : List (List ℚ)).map (fun e => d_expansion [2] e)) <
      ([[3], [1], [1]] : List (List ℚ)).length ∧
    (([[3], [1], [1]] : List (List ℚ)).map (fun e => d_expansion [2] e)).getD
        (argminIdx (([[3], [1], [1]] : List (List ℚ)).map (fun e => d_expansion [2] e))) 0 =
      listMin (([[3], [1], [1]] : List (List ℚ)).map (fun e => d_expansion [2] e)) ∧
    (∀ x ∈ ([[3], [1], [1]] : List (List ℚ)).map (fun e => d_expansion [2] e),
      listMin (([[3], [1], [1]] : List (List ℚ)).map (fun e => d_expansion [2] e)) ≤ x) ∧
    (∀ i < argminIdx (([[3], [1], [1]] : List (List ℚ)).map (fun e => d_expansion [2] e)),
      listMin (([[3], [1], [1]] : List (List ℚ)).map (fun e => d_expansion [2] e)) <
        (([[3], [1], [1]] : List (List ℚ)).map (fun e => d_expansion [2] e)).getD i 0) :=
  C4_distance_argmin [2] [[3], [1], [1]] 1 (by decide) (by decide) (by decide)

/-- Claim C5.  With no remap configured: the quantized rows produced by
`forward_quantizer` at the embedding-lookup stage (after the numerically
neutral straight-through substitution `z + (z_q - z).detach()`) equal the
codebook vectors looked up at the returned argmin indices, and
`get_codebook_entry` applied to those indices reproduces exactly the same
rows (both pipelines then apply the identical `b h w c -> b c h w`
relayout). -/
theorem C5_roundtrip_no_remap (codebook : List (List ℚ)) (zrows : List (List ℚ))
    (e_dim : ℕ) (hcb : codebook ≠ [])
    (hcbdim : ∀ e ∈ codebook, e.length = e_dim)
    (hzdim : ∀ z ∈ zrows, z.length = e_dim) :
    forward_zq_rows codebook zrows =
      (codebook_indices codebook zrows).map (embedLookup codebook) ∧
    forward_zq_rows codebook zrows =
      get_codebook_entry_rows codebook (codebook_indices codebook zrows) := by
  have main : forward_zq_rows codebook zrows =
      (codebook_indices codebook zrows).map (embedLookup codebook) := by
    rw [forward_zq_rows, codebook_indices, List.map_map]
    apply List.map_congr_left
    intro z hz
    simp only [Function.comp]
    apply zip_st_eq
    have hargmin : argminIdx (codebook.map (fun e => d_expansion z e)) <
        codebook.length := by
      have h := argminIdx_lt_length (l := codebook.map (fun e => d_expansion z e))
        (by simpa using hcb)
      simpa using h
    rw [hzdim z hz, hcbdim _ (embedLookup_mem hargmin)]
  exact ⟨main, by rw [main, get_codebook_entry_rows]⟩

/-- Claim C5, witness. -/
theorem C5_witness :
    forward_zq_rows [[1], [2]] [[2]] =
      (codebook_indices [[1], [2]] [[2]]).map (embedLookup [[1], [2]]) ∧
    forward_zq_rows [[1], [2]] [[2]] =
      get_codebook_entry_rows [[1], [2]] (codebook_indices [[1], [2]] [[2]]) :=
  C5_roundtrip_no_remap [[1], [2]] [[2]] 1 (by decide) (by decide) (by decide)

/-- Claim C8.  For every input with batch 2 and spatial extent 4 x 4 (shape
`(2, z_channels, 4, 4)`, which `quant_conv` maps to `(2, e_dim, 4, 4)`),
`use_voxel = False` and `sane_index_shape = True`: the indices tensor
returned by `forward` has shape `(2, 4, 4)`, with or without a remap. -/
theorem C8_sane_index_shape (W : List (List ℚ)) (bias : List ℚ)
    (codebook : List (List ℚ)) (remap : Option (List ℕ × UnknownCfg))
    (rnd : ℕ → ℕ) (zrows : List (List ℚ)) (ind : ITensor)
    (hfwd : forward_indices_2d W bias codebook remap rnd true 2 4 4 zrows = some ind) :
    ind.shape = [2, 4, 4] := by
  rw [forward_indices_2d] at hfwd
  cases remap with
  | none =>
    simp only [forward_min_indices] at hfwd
    split at hfwd
    · simp only [Option.map_some', Option.some.injEq] at hfwd
      rw [← hfwd]
      simp
    · simp at hfwd
  | some pair =>
    obtain ⟨used, cfg⟩ := pair
    simp only [forward_min_indices] at hfwd
    split at hfwd
    · rw [remap_to_used] at hfwd
      rw [if_pos (by simp : 1 < ([2, 4 * 4] : List ℕ).length)] at hfwd
      simp only [Option.map_some', Option.some.injEq] at hfwd
      rw [← hfwd]
      simp
    · simp at hfwd

/-- Claim C8, witness. -/
theorem C8_witness : (ITensor.mk [2, 4, 4] (List.replicate 32 0)).shape = [2, 4, 4] :=
  C8_sane_index_shape [[1]] [0] [[0]] none (fun _ => 0) (List.replicate 32 [0])
    ⟨[2, 4, 4], List.replicate 32 0⟩
    (by norm_num [forward_indices_2d, forward_min_indices, codebook_indices, conv1x1,
      dot, d_expansion, sumsq, argminIdx, listMin, List.replicate])

/-- Claim C9.  The method `get_codebook_index` never applies the index remap: its output
is exactly the full-codebook argmin of the `quant_conv`-projected rows,
bounded by `n_e` only.  Concretely, with the 3-entry codebook
`[[0],[1],[8]]`, remap table `[1]` and `unknown_index="extra"`
(`re_embed = 2`), the input row `[8]` makes `get_codebook_index` return
index 2, outside `[0, re_embed)`, while `forward` on the same rows returns
the compacted index 1, inside `[0, re_embed)`. -/
theorem C9_gci_full_space (W : List (List ℚ)) (bias : List ℚ)
    (codebook : List (List ℚ)) (b h w : ℕ) (zrows : List (List ℚ)) (gind : ITensor)
    (hcb : codebook ≠ [])
    (hg : get_codebook_index_2d W bias codebook b h w zrows = some gind) :
    gind.data = codebook_indices codebook (zrows.map (conv1x1 W bias)) ∧
    allLt gind.data codebook.length ∧
    (get_codebook_index_2d [[1]] [0] [[0], [1], [8]] 1 1 1 [[8]] =
        some ⟨[1, 1, 1], [2]⟩ ∧
      ¬ ((2 : ℕ) < re_embed 3 (some ([1], UnknownCfg.extra))) ∧
      forward_min_indices [[0], [1], [8]] (some ([1], UnknownCfg.extra)) (fun _ => 0)
          false 1 1 1 [[8]] = some ⟨[1, 1], [1]⟩ ∧
      (1 : ℕ) < re_embed 3 (some ([1], UnknownCfg.extra))) := by
  have hdata : gind.data = codebook_indices codebook (zrows.map (conv1x1 W bias)) := by
    rw [get_codebook_index_2d] at hg
    split at hg
    · rw [← Option.some.inj hg]
    · simp at hg
  refine ⟨hdata, ?_, ?_, by decide, ?_, by decide⟩
  · intro y hy
    rw [hdata] at hy
    exact codebook_indices_lt hcb hy
  · norm_num [get_codebook_index_2d, codebook_indices, conv1x1, dot, d_expansion, sumsq,
      argminIdx, listMin]
  · norm_num [forward_min_indices, codebook_indices, d_expansion, sumsq, dot, argminIdx,
      listMin, remap_to_used, remapEntry, matchIdx, resolvedUnknown, unknownResolution]
    decide

/-- Claim C9, witness. -/
theorem C9_witness :
    (ITensor.mk [1, 1, 1] [1]).data = codebook_indices [[0], [3]]
      ([[(3:ℚ)]].map (conv1x1 [[1]] [0])) ∧
    allLt (ITensor.mk [1, 1, 1] [1]).data ([[(0:ℚ)], [3]]).length ∧
    (get_codebook_index_2d [[1]] [0] [[0], [1], [8]] 1 1 1 [[8]] =
        some ⟨[1, 1, 1], [2]⟩ ∧
      ¬ ((2 : ℕ) < re_embed 3 (some ([1], UnknownCfg.extra))) ∧
      forward_min_indices [[0], [1], [8]] (some ([1], UnknownCfg.extra)) (fun _ => 0)
          false 1 1 1 [[8]] = some ⟨[1, 1], [1]⟩ ∧
      (1 : ℕ) < re_embed 3 (some ([1], UnknownCfg.extra))) :=
  C9_gci_full_space [[1]] [0] [[0], [3]] 1 1 1 [[3]] ⟨[1, 1, 1], [1]⟩ (by decide)
    (by norm_num [get_codebook_index_2d, codebook_indices, conv1x1, dot, d_expansion,
      sumsq, argminIdx, listMin])

end VQ
